import Mathlib

/-!
Verification development for the `cypher-builder-fork-with-internal-id`
repository: a programmatic builder compiling an AST of variables, clauses and
patterns into Cypher query text.

The development shallowly embeds:
* the naming Environment and allocator (modelled from the spec, since
  `Environment.ts` is not part of the provided sources — only its
  documentation and callers are);
* a small renderable AST (`CNode`) standing for the AST node protocol;
* the pattern compiler state (modelled from the spec);
* `Projection` (from `src/src/clauses/sub-clauses/Projection.ts`), including
  a faithful embedding of its two JavaScript regex rewrites of `.id` and
  `.labels` over the already-rendered text;
* `IsType` (from the type-predicate source file).

Machine strings are `String`/`List Char`; the JavaScript regex
`/(id:\s*this(\d+)\.id|\.id)/g` with its replacement callback is embedded as a
left-to-right scan (`rewriteIdGo`) that at each position first tries the
`id:\s*this(\d+)\.id` alternative, then the `\.id` alternative, exactly as the
JavaScript engine resolves this alternation, and resumes after the matched
substring (JavaScript `String.replace` with a global regex does not rescan
replacement text).  `\s` is modelled by the ASCII whitespace characters and
`\d` by the decimal digits.
-/

namespace CypherSpec

/-! ## Decimal rendering of counters -/

/-- The decimal digit characters used in generated names. -/
def digitChar (n : Nat) : Char :=
  (['0', '1', '2', '3', '4', '5', '6', '7', '8', '9'].getD n '0')

/-- Fuel-driven decimal rendering of a natural number (most significant digit
first), mirroring how JavaScript prints the allocator counter into `this0`,
`this1`, …  The fuel is always instantiated with a sufficient value. -/
def decReprF : Nat → Nat → List Char
  | 0, _ => []
  | f + 1, n =>
    if n < 10 then [digitChar n]
    else decReprF f (n / 10) ++ [digitChar (n % 10)]

/-- Decimal rendering of a natural number. -/
def decRepr (n : Nat) : List Char := decReprF (n + 1) n

/-- Decoder used to prove that decimal rendering is injective. -/
def decVal (a : Nat) (cs : List Char) : Nat :=
  cs.foldl (fun acc c => acc * 10 + (c.toNat - 48)) a

theorem decVal_append_singleton (a : Nat) (xs : List Char) (c : Char) :
    decVal a (xs ++ [c]) = decVal a xs * 10 + (c.toNat - 48) := by
  simp [decVal, List.foldl_append]

theorem toNat_digitChar (n : Nat) (h : n < 10) : (digitChar n).toNat - 48 = n := by
  interval_cases n <;> decide

theorem decVal_decReprF (f : Nat) : ∀ n a, n < f →
    decVal a (decReprF f n) = a * 10 ^ (decReprF f n).length + n := by
  induction f with
  | zero => intro n a h; omega
  | succ f ih =>
    intro n a h
    by_cases h10 : n < 10
    · simp [decReprF, h10, decVal, toNat_digitChar n h10]
    · have hrec : n / 10 < f := by omega
      have hlen : (decReprF (f + 1) n).length = (decReprF f (n / 10)).length + 1 := by
        simp [decReprF, h10]
      rw [show decReprF (f + 1) n = decReprF f (n / 10) ++ [digitChar (n % 10)] by
            simp [decReprF, h10]]
      rw [decVal_append_singleton, ih (n / 10) a hrec,
        toNat_digitChar (n % 10) (Nat.mod_lt _ (by omega))]
      have : (decReprF f (n / 10) ++ [digitChar (n % 10)]).length
          = (decReprF f (n / 10)).length + 1 := by simp
      rw [this, pow_succ]
      have := Nat.div_add_mod n 10
      ring_nf
      omega

theorem decVal_decRepr (n : Nat) : decVal 0 (decRepr n) = n := by
  have := decVal_decReprF (n + 1) n 0 (by omega)
  simpa [decRepr] using this

theorem decRepr_injective : Function.Injective decRepr := by
  intro a b h
  have ha := decVal_decRepr a
  have hb := decVal_decRepr b
  rw [h] at ha
  omega

/-! ## Boolean substring and string-prefix tests (used to state claims) -/

/-- Boolean test: `p` occurs as a prefix of `s` (on character lists). -/
def isPreB : List Char → List Char → Bool
  | [], _ => true
  | _ :: _, [] => false
  | c :: p, d :: s => c = d && isPreB p s

/-- Boolean test: `p` occurs as a contiguous substring of `s`. -/
def containsSub : List Char → List Char → Bool
  | s, p =>
    if isPreB p s then true
    else match s with
      | [] => false
      | _ :: rest => containsSub rest p

theorem isPreB_append (p rest : List Char) : isPreB p (p ++ rest) = true := by
  induction p with
  | nil => rfl
  | cons c cs ih => simp [isPreB, ih]

/-! ## Naming Allocator and Environment

Modelled from the spec: the Environment source is not among the provided
files; §3/§4.1/§4.2 of the spec describe it.  A `Var` is an identity object
(`id` plays the role of JavaScript object identity) optionally carrying a
caller-supplied explicit name.  The Environment memoizes identity → name,
returns explicit names verbatim (prefix never applied), raises
`NameCollisionError` when an explicit name collides with a name already
assigned to a different identity, and otherwise generates
`{prefix}{classTag}{counter}` with class tag `this` and the next unused
counter value.  Parameters are not needed by any claim and are omitted. -/

/-- A Variable identity object (spec §3 "Variable"). -/
structure Var where
  id : Nat
  name : Option String
  deriving DecidableEq, Repr

/-- Errors of the compilation engine (spec §7). -/
inductive Err where
  | nameCollision
  | incompletePattern
  deriving DecidableEq, Repr

/-- The compilation Environment (spec §3 "Environment"): prefix for generated
names, memo table from identity to assigned name, and a generation counter. -/
structure Env where
  pfx : String
  table : List (Var × String)
  counter : Nat
  deriving DecidableEq, Repr

/-- Memo-table lookup by identity. -/
def lookupVar : List (Var × String) → Var → Option String
  | [], _ => none
  | (w, n) :: rest, v => if v = w then some n else lookupVar rest v

/-- The generated name for counter value `k`: `{prefix}this{k}` (spec §4.1). -/
def mkName (pfx : String) (k : Nat) : String :=
  ⟨pfx.data ++ ('t' :: 'h' :: 'i' :: 's' :: decRepr k)⟩

/-- Picks the next unused counter value at or after `n` ("the next unused
integer for that class", spec §4.1).  Each collision removes the colliding
name from the candidate obstruction list, so `used.length + 1` fuel always
suffices. -/
def pickFreshF : Nat → (Nat → String) → List String → Nat → Nat
  | 0, _, _, n => n
  | f + 1, mk, used, n =>
    if mk n ∈ used then pickFreshF f mk (used.erase (mk n)) (n + 1) else n

theorem pickFreshF_ge : ∀ (f : Nat) (mk : Nat → String) (used : List String) (n : Nat),
    n ≤ pickFreshF f mk used n := by
  intro f
  induction f with
  | zero => intro mk used n; simp [pickFreshF]
  | succ f ih =>
    intro mk used n
    by_cases h : mk n ∈ used
    · simp only [pickFreshF, h, if_true]
      exact le_trans (by omega) (ih mk (used.erase (mk n)) (n + 1))
    · simp [pickFreshF, h]

theorem pickFreshF_fresh : ∀ (f : Nat) (mk : Nat → String) (used : List String) (n : Nat),
    Function.Injective mk → used.length < f → mk (pickFreshF f mk used n) ∉ used := by
  intro f
  induction f with
  | zero => intro mk used n _ h; omega
  | succ f ih =>
    intro mk used n hinj h
    by_cases hmem : mk n ∈ used
    · simp only [pickFreshF, hmem, if_true]
      have hlen : (used.erase (mk n)).length < f := by
        have h1 := List.length_erase_of_mem hmem
        have h2 : 0 < used.length := List.length_pos_of_mem hmem
        omega
      have hfresh := ih mk (used.erase (mk n)) (n + 1) hinj hlen
      intro hcontra
      have hne : mk (pickFreshF f mk (used.erase (mk n)) (n + 1)) ≠ mk n := by
        intro he
        have := hinj he
        have := pickFreshF_ge f mk (used.erase (mk n)) (n + 1)
        omega
      exact hfresh ((List.mem_erase_of_ne hne).mpr hcontra)
    · simp [pickFreshF, hmem]

theorem mkName_injective (pfx : String) : Function.Injective (mkName pfx) := by
  intro a b h
  have hdata : pfx.data ++ ('t' :: 'h' :: 'i' :: 's' :: decRepr a)
      = pfx.data ++ ('t' :: 'h' :: 'i' :: 's' :: decRepr b) := congrArg String.data h
  have := List.append_cancel_left hdata
  simp only [List.cons.injEq, true_and] at this
  exact decRepr_injective this

/-- Spec §4.2 `nameOf`: memoized name resolution.  Explicit names are returned
verbatim after a collision check; anonymous identities get a fresh generated
name and bump the counter. -/
def nameOf (v : Var) (e : Env) : Except Err (String × Env) :=
  match lookupVar e.table v with
  | some n => .ok (n, e)
  | none =>
    match v.name with
    | some nm =>
      if nm ∈ e.table.map Prod.snd then .error .nameCollision
      else .ok (nm, { e with table := (v, nm) :: e.table })
    | none =>
      let k := pickFreshF (e.table.length + 1) (mkName e.pfx) (e.table.map Prod.snd) e.counter
      let n := mkName e.pfx k
      .ok (n, { e with table := (v, n) :: e.table, counter := k + 1 })

/-- A fresh Environment for one `build` call (spec §4.5). -/
def Env.init (p : String) : Env := ⟨p, [], 0⟩

/-! ## AST node protocol

Modelled from the spec (§4.3): a minimal renderable AST with variable-reference
leaves, raw-text leaves, and binary composition.  `render` additionally emits a
trace of `(variable, rendered identifier)` pairs, one per variable-reference
render position in left-to-right order, used to state the claims about render
positions; the rendered text and Environment effects are untouched by the
trace. -/

/-- A compilable AST node. -/
inductive CNode where
  | varRef (v : Var)
  | raw (s : String)
  | seq (a b : CNode)
  deriving DecidableEq, Repr

/-- `render(env)` of the AST node protocol, with a trace of variable render
positions. -/
def render : CNode → Env → Except Err (String × List (Var × String) × Env)
  | .varRef v, e =>
    match nameOf v e with
    | .ok (n, e2) => .ok (n, [(v, n)], e2)
    | .error err => .error err
  | .raw s, e => .ok (s, [], e)
  | .seq a b, e =>
    match render a e with
    | .ok (s1, t1, e1) =>
      match render b e1 with
      | .ok (s2, t2, e2) => .ok (s1 ++ s2, t1 ++ t2, e2)
      | .error err => .error err
    | .error err => .error err

/-- Spec §4.5 build entry point, text component (parameters are omitted as no
claim concerns them). -/
def buildCypher (t : CNode) (p : String) : Except Err String :=
  (render t (Env.init p)).map (fun r => r.1)

/-! ## Well-formedness of Environments and render-time invariants -/

/-- Environment well-formedness: identities are memoized at most once and no
two identities hold the same name. -/
def EnvWF (e : Env) : Prop :=
  (e.table.map Prod.fst).Nodup ∧ (e.table.map Prod.snd).Nodup

theorem lookupVar_eq_none (tbl : List (Var × String)) (v : Var) :
    lookupVar tbl v = none ↔ v ∉ tbl.map Prod.fst := by
  induction tbl with
  | nil => simp [lookupVar]
  | cons p rest ih =>
    obtain ⟨w, n⟩ := p
    by_cases h : v = w
    · subst h; simp [lookupVar]
    · simp [lookupVar, h, ih]

theorem lookupVar_mem {tbl : List (Var × String)} {v : Var} {n : String}
    (h : lookupVar tbl v = some n) : (v, n) ∈ tbl := by
  induction tbl with
  | nil => simp [lookupVar] at h
  | cons p rest ih =>
    obtain ⟨w, m⟩ := p
    by_cases hv : v = w
    · subst hv
      simp [lookupVar] at h
      simp [h]
    · simp [lookupVar, hv] at h
      exact List.mem_cons_of_mem _ (ih h)

theorem lookupVar_inj {tbl : List (Var × String)} (hk : (tbl.map Prod.fst).Nodup)
    (hv : (tbl.map Prod.snd).Nodup) {v w : Var} {n m : String}
    (h1 : lookupVar tbl v = some n) (h2 : lookupVar tbl w = some m) (hne : v ≠ w) :
    n ≠ m := by
  induction tbl with
  | nil => simp [lookupVar] at h1
  | cons p rest ih =>
    obtain ⟨u, s⟩ := p
    simp only [List.map_cons, List.nodup_cons] at hk hv
    by_cases hvu : v = u
    · subst hvu
      simp [lookupVar] at h1
      subst h1
      have hwu : w ≠ v := fun h => hne h.symm
      simp [lookupVar, hwu] at h2
      have : m ∈ rest.map Prod.snd :=
        List.mem_map.mpr ⟨(w, m), lookupVar_mem h2, rfl⟩
      intro he
      exact hv.1 (he ▸ this)
    · simp only [lookupVar, if_neg hvu] at h1
      by_cases hwu : w = u
      · subst hwu
        simp [lookupVar] at h2
        subst h2
        have : n ∈ rest.map Prod.snd :=
          List.mem_map.mpr ⟨(v, n), lookupVar_mem h1, rfl⟩
        intro he
        exact hv.1 (he ▸ this)
      · simp only [lookupVar, if_neg hwu] at h2
        exact ih hk.2 hv.2 h1 h2

/-- `nameOf` preserves well-formedness, only extends the memo table, and the
resolved identity is afterwards memoized to the returned name. -/
theorem nameOf_wf {v : Var} {e : Env} {n : String} {e2 : Env}
    (hwf : EnvWF e) (h : nameOf v e = .ok (n, e2)) :
    EnvWF e2 ∧ (∀ w m, lookupVar e.table w = some m → lookupVar e2.table w = some m) ∧
      lookupVar e2.table v = some n ∧ e2.pfx = e.pfx := by
  unfold nameOf at h
  cases hl : lookupVar e.table v with
  | some n0 =>
    rw [hl] at h
    simp only [Except.ok.injEq, Prod.mk.injEq] at h
    obtain ⟨hn, he⟩ := h
    subst hn; subst he
    exact ⟨hwf, fun w m hm => hm, hl, rfl⟩
  | none =>
    rw [hl] at h
    have hnotin : v ∉ e.table.map Prod.fst := (lookupVar_eq_none _ _).mp hl
    cases hname : v.name with
    | some nm =>
      rw [hname] at h
      by_cases hcol : nm ∈ e.table.map Prod.snd
      · simp [hcol] at h
      · simp only [hcol, if_neg, if_false] at h
        simp only [Except.ok.injEq, Prod.mk.injEq] at h
        obtain ⟨hn, he⟩ := h
        subst hn
        subst he
        refine ⟨⟨?_, ?_⟩, ?_, ?_, rfl⟩
        · simp only [List.map_cons, List.nodup_cons]
          exact ⟨hnotin, hwf.1⟩
        · simp only [List.map_cons, List.nodup_cons]
          exact ⟨hcol, hwf.2⟩
        · intro w m hm
          have hwv : w ≠ v := by
            intro hh
            subst hh
            rw [hl] at hm
            exact Option.noConfusion hm
          simpa [lookupVar, hwv] using hm
        · simp [lookupVar]
    | none =>
      rw [hname] at h
      simp only [Except.ok.injEq, Prod.mk.injEq] at h
      obtain ⟨hn, he⟩ := h
      have hfresh : mkName e.pfx
          (pickFreshF (e.table.length + 1) (mkName e.pfx) (e.table.map Prod.snd) e.counter)
          ∉ e.table.map Prod.snd := by
        apply pickFreshF_fresh _ _ _ _ (mkName_injective e.pfx)
        simp
      subst hn
      subst he
      refine ⟨⟨?_, ?_⟩, ?_, ?_, rfl⟩
      · simp only [List.map_cons, List.nodup_cons]
        exact ⟨hnotin, hwf.1⟩
      · simp only [List.map_cons, List.nodup_cons]
        exact ⟨hfresh, hwf.2⟩
      · intro w m hm
        have hwv : w ≠ v := by
          intro hh
          subst hh
          rw [hl] at hm
          exact Option.noConfusion hm
        simpa [lookupVar, hwv] using hm
      · simp [lookupVar]

/-- `nameOf` can only fail with a name collision. -/
theorem nameOf_error {v : Var} {e : Env} {err : Err}
    (h : nameOf v e = .error err) : err = .nameCollision := by
  unfold nameOf at h
  cases hl : lookupVar e.table v with
  | some n0 => rw [hl] at h; exact Except.noConfusion h
  | none =>
    rw [hl] at h
    cases hname : v.name with
    | some nm =>
      rw [hname] at h
      by_cases hcol : nm ∈ e.table.map Prod.snd
      · simp only [hcol, if_true] at h
        exact (Except.error.injEq _ _).mp h.symm ▸ rfl
      · simp [hcol] at h
    | none => rw [hname] at h; exact Except.noConfusion h

/-- Rendering preserves Environment well-formedness, only extends the memo
table, keeps the prefix, and every traced render position is memoized in the
final Environment to exactly the identifier it rendered. -/
theorem render_wf : ∀ (t : CNode) {e : Env} {s : String}
    {tr : List (Var × String)} {e2 : Env},
    EnvWF e → render t e = .ok (s, tr, e2) →
    EnvWF e2 ∧ (∀ w m, lookupVar e.table w = some m → lookupVar e2.table w = some m) ∧
      (∀ p ∈ tr, lookupVar e2.table p.1 = some p.2) ∧ e2.pfx = e.pfx := by
  intro t
  induction t with
  | varRef v =>
    intro e s tr e2 hwf h
    simp only [render] at h
    cases hn : nameOf v e with
    | ok r =>
      obtain ⟨n, e'⟩ := r
      rw [hn] at h
      simp only [Except.ok.injEq, Prod.mk.injEq] at h
      obtain ⟨hs, htr, he⟩ := h
      subst htr
      subst he
      obtain ⟨hwf2, hmono, hvn, hpfx⟩ := nameOf_wf hwf hn
      refine ⟨hwf2, hmono, ?_, hpfx⟩
      intro p hp
      simp only [List.mem_singleton] at hp
      subst hp
      subst hs
      exact hvn
    | error err => rw [hn] at h; exact Except.noConfusion h
  | raw s0 =>
    intro e s tr e2 hwf h
    simp only [render, Except.ok.injEq, Prod.mk.injEq] at h
    obtain ⟨hs, htr, he⟩ := h
    subst htr
    subst he
    exact ⟨hwf, fun w m hm => hm, by simp, rfl⟩
  | seq a b iha ihb =>
    intro e s tr e2 hwf h
    simp only [render] at h
    cases ha : render a e with
    | ok ra =>
      obtain ⟨s1, t1, e1⟩ := ra
      rw [ha] at h
      dsimp only at h
      cases hb : render b e1 with
      | ok rb =>
        obtain ⟨s2, t2, e2'⟩ := rb
        rw [hb] at h
        dsimp only at h
        simp only [Except.ok.injEq, Prod.mk.injEq] at h
        obtain ⟨hs, htr, he⟩ := h
        subst htr
        subst he
        obtain ⟨hwf1, hm1, htr1, hp1⟩ := iha hwf ha
        obtain ⟨hwf2, hm2, htr2, hp2⟩ := ihb hwf1 hb
        refine ⟨hwf2, fun w m hm => hm2 w m (hm1 w m hm), ?_, hp2.trans hp1⟩
        intro p hp
        rcases List.mem_append.mp hp with hp | hp
        · exact hm2 p.1 p.2 (htr1 p hp)
        · exact htr2 p hp
      | error err => rw [hb] at h; exact Except.noConfusion h
    | error err => rw [ha] at h; exact Except.noConfusion h

/-! ## Determinism under renaming of identities (claim C5 machinery)

Two "freshly-constructed equivalent trees sharing no Variable identities"
differ exactly by an injective renaming of the identity component of their
variables (explicit caller-supplied names, which pin output names, are kept
equal by equivalence). -/

/-- Renames the identity of a variable, preserving any explicit name. -/
def mapVar (f : Nat → Nat) (v : Var) : Var := ⟨f v.id, v.name⟩

/-- Renames every variable identity in a tree. -/
def renameTree (f : Nat → Nat) : CNode → CNode
  | .varRef v => .varRef (mapVar f v)
  | .raw s => .raw s
  | .seq a b => .seq (renameTree f a) (renameTree f b)

/-- Renames the keys of a memo table. -/
def mapTable (f : Nat → Nat) (tbl : List (Var × String)) : List (Var × String) :=
  tbl.map (fun p => (mapVar f p.1, p.2))

/-- Simulation relation between the Environments of the two runs. -/
def EnvRel (f : Nat → Nat) (e1 e2 : Env) : Prop :=
  e2.pfx = e1.pfx ∧ e2.counter = e1.counter ∧ e2.table = mapTable f e1.table

theorem mapVar_injective {f : Nat → Nat} (hf : Function.Injective f) :
    Function.Injective (mapVar f) := by
  intro v w h
  simp only [mapVar, Var.mk.injEq] at h
  cases v
  cases w
  simp only [Var.mk.injEq]
  exact ⟨hf h.1, h.2⟩

theorem lookupVar_mapTable {f : Nat → Nat} (hf : Function.Injective f)
    (tbl : List (Var × String)) (v : Var) :
    lookupVar (mapTable f tbl) (mapVar f v) = lookupVar tbl v := by
  induction tbl with
  | nil => rfl
  | cons p rest ih =>
    obtain ⟨w, n⟩ := p
    by_cases h : v = w
    · subst h; simp [mapTable, lookupVar]
    · have hne : mapVar f v ≠ mapVar f w := fun he => h (mapVar_injective hf he)
      simp only [mapTable, List.map_cons, lookupVar, if_neg h, if_neg hne]
      exact ih

theorem values_mapTable (f : Nat → Nat) (tbl : List (Var × String)) :
    (mapTable f tbl).map Prod.snd = tbl.map Prod.snd := by
  simp [mapTable, List.map_map, Function.comp]

theorem length_mapTable (f : Nat → Nat) (tbl : List (Var × String)) :
    (mapTable f tbl).length = tbl.length := by
  simp [mapTable]

/-- The Environment of the renamed run corresponding to an Environment of the
original run. -/
def pushEnv (f : Nat → Nat) (e : Env) : Env :=
  ⟨e.pfx, mapTable f e.table, e.counter⟩

/-- `nameOf` commutes with an injective renaming of identities: same rendered
name, same error behaviour, corresponding Environments. -/
theorem nameOf_push {f : Nat → Nat} (hf : Function.Injective f) (v : Var) (e : Env) :
    nameOf (mapVar f v) (pushEnv f e)
      = (nameOf v e).map (fun r => (r.1, pushEnv f r.2)) := by
  unfold nameOf
  have hlook : lookupVar (pushEnv f e).table (mapVar f v) = lookupVar e.table v :=
    lookupVar_mapTable hf e.table v
  rw [hlook]
  cases hl : lookupVar e.table v with
  | some n => rfl
  | none =>
    have hname : (mapVar f v).name = v.name := rfl
    rw [hname]
    cases v.name with
    | some nm =>
      have hvals : (pushEnv f e).table.map Prod.snd = e.table.map Prod.snd :=
        values_mapTable f e.table
      rw [hvals]
      by_cases hcol : nm ∈ e.table.map Prod.snd
      · simp only [hcol, if_true]
        rfl
      · simp only [hcol, if_false, Except.map]
        rfl
    | none =>
      have hvals : (pushEnv f e).table.map Prod.snd = e.table.map Prod.snd :=
        values_mapTable f e.table
      have hlen : (pushEnv f e).table.length = e.table.length :=
        length_mapTable f e.table
      have hpfx : (pushEnv f e).pfx = e.pfx := rfl
      have hcnt : (pushEnv f e).counter = e.counter := rfl
      rw [hvals, hlen, hpfx, hcnt]
      simp only [Except.map]
      rfl

/-- `render` commutes with an injective renaming of variable identities: the
rendered text and error behaviour are unchanged; only the identities in the
trace and memo table are renamed. -/
theorem render_push {f : Nat → Nat} (hf : Function.Injective f) :
    ∀ (t : CNode) (e : Env),
    render (renameTree f t) (pushEnv f e)
      = (render t e).map
          (fun r => (r.1, r.2.1.map (fun p => (mapVar f p.1, p.2)), pushEnv f r.2.2)) := by
  intro t
  induction t with
  | varRef v =>
    intro e
    simp only [renameTree, render, nameOf_push hf]
    cases nameOf v e with
    | ok r => obtain ⟨n, e2⟩ := r; rfl
    | error err => rfl
  | raw s => intro e; rfl
  | seq a b iha ihb =>
    intro e
    simp only [renameTree, render, iha]
    cases render a e with
    | ok ra =>
      obtain ⟨s1, t1, e1⟩ := ra
      simp only [Except.map, ihb]
      cases render b e1 with
      | ok rb => obtain ⟨s2, t2, e2⟩ := rb; simp
      | error err => rfl
    | error err => rfl

/-! ## Explicit names verbatim; generated names prefixed (claim C8 machinery) -/

/-- Invariant tying an Environment to the build prefix `p`: every memoized
entry of an explicitly named identity holds the caller-supplied name verbatim,
and every memoized entry of an anonymous identity holds a name beginning with
`p`. -/
def NamedOK (p : String) (e : Env) : Prop :=
  e.pfx = p ∧ ∀ q ∈ e.table,
    (∀ nm, q.1.name = some nm → q.2 = nm) ∧
    (q.1.name = none → isPreB p.data q.2.data = true)

theorem nameOf_namedOK {p : String} {v : Var} {e : Env} {n : String} {e2 : Env}
    (hok : NamedOK p e) (h : nameOf v e = .ok (n, e2)) : NamedOK p e2 := by
  obtain ⟨hpfx, htab⟩ := hok
  unfold nameOf at h
  cases hl : lookupVar e.table v with
  | some n0 =>
    rw [hl] at h
    simp only [Except.ok.injEq, Prod.mk.injEq] at h
    obtain ⟨hn, he⟩ := h
    subst he
    exact ⟨hpfx, htab⟩
  | none =>
    rw [hl] at h
    cases hname : v.name with
    | some nm =>
      rw [hname] at h
      by_cases hcol : nm ∈ e.table.map Prod.snd
      · simp [hcol] at h
      · simp only [hcol, if_false, Except.ok.injEq, Prod.mk.injEq] at h
        obtain ⟨hn, he⟩ := h
        subst he
        refine ⟨hpfx, ?_⟩
        intro q hq
        rcases List.mem_cons.mp hq with hq | hq
        · subst hq
          refine ⟨?_, ?_⟩
          · intro nm2 hnm2
            rw [hname] at hnm2
            exact (Option.some.injEq _ _).mp hnm2 ▸ rfl
          · intro hnone
            rw [hname] at hnone
            exact Option.noConfusion hnone
        · exact htab q hq
    | none =>
      rw [hname] at h
      simp only [Except.ok.injEq, Prod.mk.injEq] at h
      obtain ⟨hn, he⟩ := h
      subst he
      refine ⟨hpfx, ?_⟩
      intro q hq
      rcases List.mem_cons.mp hq with hq | hq
      · subst hq
        refine ⟨?_, ?_⟩
        · intro nm2 hnm2
          rw [hname] at hnm2
          exact Option.noConfusion hnm2
        · intro _
          have : (mkName e.pfx (pickFreshF (e.table.length + 1) (mkName e.pfx)
              (e.table.map Prod.snd) e.counter)).data
              = e.pfx.data ++ ('t' :: 'h' :: 'i' :: 's'
                  :: decRepr (pickFreshF (e.table.length + 1) (mkName e.pfx)
                      (e.table.map Prod.snd) e.counter)) := rfl
          rw [this, hpfx]
          exact isPreB_append _ _
      · exact htab q hq

theorem render_namedOK : ∀ (t : CNode) {p : String} {e : Env} {s : String}
    {tr : List (Var × String)} {e2 : Env},
    NamedOK p e → render t e = .ok (s, tr, e2) → NamedOK p e2 := by
  intro t
  induction t with
  | varRef v =>
    intro p e s tr e2 hok h
    simp only [render] at h
    cases hn : nameOf v e with
    | ok r =>
      obtain ⟨n, e_⟩ := r
      rw [hn] at h
      simp only [Except.ok.injEq, Prod.mk.injEq] at h
      obtain ⟨_, _, he⟩ := h
      subst he
      exact nameOf_namedOK hok hn
    | error err => rw [hn] at h; exact Except.noConfusion h
  | raw s0 =>
    intro p e s tr e2 hok h
    simp only [render, Except.ok.injEq, Prod.mk.injEq] at h
    obtain ⟨_, _, he⟩ := h
    subst he
    exact hok
  | seq a b iha ihb =>
    intro p e s tr e2 hok h
    simp only [render] at h
    cases ha : render a e with
    | ok ra =>
      obtain ⟨s1, t1, e1⟩ := ra
      rw [ha] at h
      dsimp only at h
      cases hb : render b e1 with
      | ok rb =>
        obtain ⟨s2, t2, e2_⟩ := rb
        rw [hb] at h
        dsimp only at h
        simp only [Except.ok.injEq, Prod.mk.injEq] at h
        obtain ⟨_, _, he⟩ := h
        subst he
        exact ihb (iha hok ha) hb
      | error err => rw [hb] at h; exact Except.noConfusion h
    | error err => rw [ha] at h; exact Except.noConfusion h

/-! ## Pattern compiler

Modelled from the spec (§3 "Pattern", §4.4, §6): the pattern sources are not
among the provided files.  A complete pattern is a starting node-element
followed by (relationship-element, node-element) pairs; the intermediate
builder state after `related(...)` with no terminating `to(...)` is a pattern
ending on a dangling relationship-element, which refuses to render with
`IncompletePatternError`.  Node-elements carry a variable, labels and a
variable-suppression flag; relationship-elements carry a variable, an optional
type, a direction and a length quantifier.  Property-matcher blocks are
omitted: no claim concerns them. -/

/-- Relationship direction. -/
inductive Dir where
  | left
  | right
  | undirected
  deriving DecidableEq, Repr

/-- Length quantifier of a relationship-element (spec §4.4). -/
inductive Quant where
  | unset
  | exact (n : Nat)
  | between (mn mx : Option Nat)
  | anyLen
  deriving DecidableEq, Repr

/-- A node-element of a pattern. -/
structure NodeElem where
  v : Var
  labels : List String
  noVar : Bool
  deriving DecidableEq, Repr

/-- A relationship-element of a pattern. -/
structure RelElem where
  v : Var
  rtype : Option String
  dir : Dir
  len : Quant
  deriving DecidableEq, Repr

/-- The node chain of a pattern: a first node-element and then alternating
relationship/node elements. -/
structure PatternData where
  start : NodeElem
  chain : List (RelElem × NodeElem)
  deriving DecidableEq, Repr

/-- A pattern value as produced by the fluent builder: either complete or
still dangling after a `related(...)` with no `to(...)`. -/
inductive PatternState where
  | complete (pd : PatternData)
  | dangling (pd : PatternData) (rel : RelElem)
  deriving DecidableEq, Repr

/-- Renders a length quantifier (spec §4.4): nothing, `*N`, `*min..max` with
either bound optional, or `*`. -/
def renderQuant : Quant → String
  | .unset => ""
  | .exact n => "*" ++ ⟨decRepr n⟩
  | .between mn mx =>
      "*" ++ (match mn with | some a => (⟨decRepr a⟩ : String) | none => "") ++ ".."
        ++ (match mx with | some b => (⟨decRepr b⟩ : String) | none => "")
  | .anyLen => "*"

/-- Renders a node-element: `(name:Label1:Label2)`, with the name omitted when
variable-suppressed. -/
def renderNodeElem (ne : NodeElem) (e : Env) : Except Err (String × Env) :=
  let labelStr := String.join (ne.labels.map (fun l => ":" ++ l))
  if ne.noVar then .ok ("(" ++ labelStr ++ ")", e)
  else
    match nameOf ne.v e with
    | .ok (n, e2) => .ok ("(" ++ n ++ labelStr ++ ")", e2)
    | .error err => .error err

/-- Renders a relationship-element with its direction-dependent brackets:
`<-[...]-`, `-[...]->` or `-[...]-`. -/
def renderRelElem (r : RelElem) (e : Env) : Except Err (String × Env) :=
  let tyStr := match r.rtype with | some ty => ":" ++ ty | none => ""
  let close : String → String := fun inner =>
    match r.dir with
    | .left => "<-[" ++ inner ++ "]-"
    | .right => "-[" ++ inner ++ "]->"
    | .undirected => "-[" ++ inner ++ "]-"
  match nameOf r.v e with
  | .ok (n, e2) => .ok (close (n ++ tyStr ++ renderQuant r.len), e2)
  | .error err => .error err

/-- Renders the (relationship, node) tail of a pattern chain. -/
def renderChain : List (RelElem × NodeElem) → Env → Except Err (String × Env)
  | [], e => .ok ("", e)
  | (r, nd) :: rest, e =>
    match renderRelElem r e with
    | .ok (rs, e1) =>
      match renderNodeElem nd e1 with
      | .ok (ns, e2) =>
        match renderChain rest e2 with
        | .ok (ts, e3) => .ok (rs ++ ns ++ ts, e3)
        | .error err => .error err
      | .error err => .error err
    | .error err => .error err

/-- Renders a pattern builder state.  A dangling pattern refuses to render
(spec §4.4/§7: `IncompletePatternError` at render time). -/
def renderPattern : PatternState → Env → Except Err (String × Env)
  | .dangling _ _, _ => .error .incompletePattern
  | .complete pd, e =>
    match renderNodeElem pd.start e with
    | .ok (ss, e1) =>
      match renderChain pd.chain e1 with
      | .ok (ts, e2) => .ok (ss ++ ts, e2)
      | .error err => .error err
    | .error err => .error err

theorem renderNodeElem_error {ne : NodeElem} {e : Env} {err : Err}
    (h : renderNodeElem ne e = .error err) : err = .nameCollision := by
  unfold renderNodeElem at h
  by_cases hv : ne.noVar
  · simp [hv] at h
  · simp only [hv, if_false] at h
    cases hn : nameOf ne.v e with
    | ok r => obtain ⟨n, e2⟩ := r; rw [hn] at h; exact Except.noConfusion h
    | error err2 =>
      rw [hn] at h
      cases h
      exact nameOf_error hn

theorem renderRelElem_error {r : RelElem} {e : Env} {err : Err}
    (h : renderRelElem r e = .error err) : err = .nameCollision := by
  unfold renderRelElem at h
  cases hn : nameOf r.v e with
  | ok rr => obtain ⟨n, e2⟩ := rr; rw [hn] at h; exact Except.noConfusion h
  | error err2 =>
    rw [hn] at h
    cases h
    exact nameOf_error hn

theorem renderChain_error : ∀ {chain : List (RelElem × NodeElem)} {e : Env} {err : Err},
    renderChain chain e = .error err → err = .nameCollision := by
  intro chain
  induction chain with
  | nil => intro e err h; exact Except.noConfusion h
  | cons p rest ih =>
    intro e err h
    obtain ⟨r, nd⟩ := p
    simp only [renderChain] at h
    cases hr : renderRelElem r e with
    | ok rr =>
      obtain ⟨rs, e1⟩ := rr
      rw [hr] at h
      dsimp only at h
      cases hn : renderNodeElem nd e1 with
      | ok nn =>
        obtain ⟨ns, e2⟩ := nn
        rw [hn] at h
        dsimp only at h
        cases hc : renderChain rest e2 with
        | ok tt => obtain ⟨ts, e3⟩ := tt; rw [hc] at h; exact Except.noConfusion h
        | error err3 =>
          rw [hc] at h
          cases h
          exact ih hc
      | error err2 =>
        rw [hn] at h
        cases h
        exact renderNodeElem_error hn
    | error err1 =>
      rw [hr] at h
      cases h
      exact renderRelElem_error hr

/-! ## Projection (from `src/src/clauses/sub-clauses/Projection.ts`)

The regex `/(id:\\s*this(\\d+)\\.id|\\.id)/g` and its callback are embedded by
`matchIdNum` (the first alternative, with its captured digit group and total
matched length) and `rewriteIdGo` (the left-to-right global scan: at each
position the first alternative is tried, then `\\.id`; on a match the callback
replacement is emitted and the scan resumes after the matched substring,
otherwise the character is copied).  The two alternatives start with distinct
characters (`i` and `.`), so leftmost-first scanning with this order is
exactly the JavaScript semantics.  The labels regex
`/(labels:\\s*this(\\d+)\\.labels|\\.labels)/g` is embedded the same way. -/

/-- ASCII whitespace, modelling the JavaScript `\\s` class. -/
def isWS (c : Char) : Bool :=
  c = ' ' || c = '\t' || c = '\n' || c = '\r' || c = '\x0b' || c = '\x0c'

/-- Matches the regex alternative `id:\\s*this(\\d+)\\.id` at the head of the
input, returning the captured digit group and the total matched length. -/
def matchIdNum : List Char → Option (List Char × Nat)
  | 'i' :: 'd' :: ':' :: rest =>
    let ws := rest.takeWhile isWS
    match rest.dropWhile isWS with
    | 't' :: 'h' :: 'i' :: 's' :: r2 =>
      let ds := r2.takeWhile Char.isDigit
      match r2.dropWhile Char.isDigit with
      | '.' :: 'i' :: 'd' :: _ =>
        if ds.isEmpty then none
        else some (ds, 3 + ws.length + 4 + ds.length + 3)
      | _ => none
    | _ => none
  | _ => none

/-- The global replace for the id regex.  The first argument is the number of
already-matched characters still to be skipped (the scan resumes after a
match; replacement text is never rescanned). -/
def rewriteIdGo : Nat → List Char → List Char
  | n + 1, _ :: rest => rewriteIdGo n rest
  | _, [] => []
  | 0, '.' :: 'i' :: 'd' :: r => "id: id(this)".data ++ rewriteIdGo 0 r
  | 0, c :: rest =>
    match matchIdNum (c :: rest) with
    | some (ds, k) =>
      "id: id(this".data ++ ds ++ [')'] ++ rewriteIdGo (k - 1) rest
    | none => c :: rewriteIdGo 0 rest

/-- `exprStr.replace(idRegexPattern, ...)` of `Projection.serializeColumn`. -/
def rewriteId (s : String) : String := ⟨rewriteIdGo 0 s.data⟩

/-- Matches the regex alternative `labels:\\s*this(\\d+)\\.labels` at the head
of the input, returning the captured digit group and the total matched
length. -/
def matchLabelsNum : List Char → Option (List Char × Nat)
  | 'l' :: 'a' :: 'b' :: 'e' :: 'l' :: 's' :: ':' :: rest =>
    let ws := rest.takeWhile isWS
    match rest.dropWhile isWS with
    | 't' :: 'h' :: 'i' :: 's' :: r2 =>
      let ds := r2.takeWhile Char.isDigit
      match r2.dropWhile Char.isDigit with
      | '.' :: 'l' :: 'a' :: 'b' :: 'e' :: 'l' :: 's' :: _ =>
        if ds.isEmpty then none
        else some (ds, 7 + ws.length + 4 + ds.length + 7)
      | _ => none
    | _ => none
  | _ => none

/-- The global replace for the labels regex. -/
def rewriteLabelsGo : Nat → List Char → List Char
  | n + 1, _ :: rest => rewriteLabelsGo n rest
  | _, [] => []
  | 0, '.' :: 'l' :: 'a' :: 'b' :: 'e' :: 'l' :: 's' :: r =>
    "labels: labels(this)".data ++ rewriteLabelsGo 0 r
  | 0, c :: rest =>
    match matchLabelsNum (c :: rest) with
    | some (ds, k) =>
      "labels: labels(this".data ++ ds ++ [')'] ++ rewriteLabelsGo (k - 1) rest
    | none => c :: rewriteLabelsGo 0 rest

/-- `idReplacedString.replace(labelRegexPattern, ...)` of
`Projection.serializeColumn`. -/
def rewriteLabels (s : String) : String := ⟨rewriteLabelsGo 0 s.data⟩

/-- The alias of an aliased projection column: a plain string, or a
renderable reference (`Variable`/`Literal` both render via `getCypher`). -/
inductive PAlias where
  | lit (s : String)
  | expr (e : CNode)
  deriving DecidableEq, Repr

/-- `ProjectionColumn`: a bare expression or an `[expression, alias]` pair. -/
inductive ProjCol where
  | plain (e : CNode)
  | aliased (e : CNode) (a : PAlias)
  deriving DecidableEq, Repr

/-- An entry of the array passed to the `Projection` constructor or to
`addColumns`: the literal `"*"` or a projection column. -/
inductive ProjEntry where
  | star
  | col (c : ProjCol)
  deriving DecidableEq, Repr

/-- The `Projection` node state. -/
structure Projection where
  columns : List ProjCol
  isStar : Bool
  deriving DecidableEq, Repr

/-- The non-star payload of an entry (the `filter` callback keeps exactly
these). -/
def entryCol : ProjEntry → Option ProjCol
  | .star => none
  | .col c => some c

/-- Whether an entry is the literal `"*"` (the `filter` callback sets the
star flag on these and drops them). -/
def entryIsStar : ProjEntry → Bool
  | .star => true
  | .col _ => false

/-- `Projection.addColumns`: `"*"` entries set the star flag and are filtered
out; the remaining columns are appended in order. -/
def Projection.addColumns (p : Projection) (entries : List ProjEntry) : Projection :=
  { columns := p.columns ++ entries.filterMap entryCol,
    isStar := p.isStar || entries.any entryIsStar }

/-- The `Projection` constructor: `addColumns` on an empty column list. -/
def Projection.ofEntries (entries : List ProjEntry) : Projection :=
  Projection.addColumns ⟨[], false⟩ entries

/-- `Projection.serializeColumn`: renders the column expression, applies the
id rewrite then the labels rewrite to the rendered text, and appends
`" AS alias"` for aliased columns. -/
def serializeColumn (c : ProjCol) (e : Env) : Except Err (String × Env) :=
  match c with
  | .aliased ex a =>
    match render ex e with
    | .ok (exprStr, _, e1) =>
      let replacedString := rewriteLabels (rewriteId exprStr)
      match a with
      | .lit str => .ok (replacedString ++ " AS " ++ str, e1)
      | .expr ae =>
        match render ae e1 with
        | .ok (aliasStr, _, e2) => .ok (replacedString ++ " AS " ++ aliasStr, e2)
        | .error err => .error err
    | .error err => .error err
  | .plain ex =>
    match render ex e with
    | .ok (cy, _, e1) => .ok (rewriteLabels (rewriteId cy), e1)
    | .error err => .error err

/-- `this.columns.map((column) => this.serializeColumn(column, env))`, with
the Environment threaded left to right. -/
def serializeAll : List ProjCol → Env → Except Err (List String × Env)
  | [], e => .ok ([], e)
  | c :: rest, e =>
    match serializeColumn c e with
    | .ok (s, e1) =>
      match serializeAll rest e1 with
      | .ok (ss, e2) => .ok (s :: ss, e2)
      | .error err => .error err
    | .error err => .error err

/-- `Projection.getCypher`: serializes all columns, prepends a single `*` when
the star flag is set, joins with `", "`.  The node's own state is returned
unchanged alongside the text, making the frame effect of rendering explicit
(the TypeScript method reads `this.columns`/`this.isStar` and writes
neither). -/
def Projection.getCypher (p : Projection) (e : Env) :
    Except Err (String × Projection × Env) :=
  match serializeAll p.columns e with
  | .ok (strs, e1) =>
    .ok (String.intercalate ", " (if p.isStar then "*" :: strs else strs), p, e1)
  | .error err => .error err

/-! ## IsType (from the type-predicate source file) -/

/-- A Cypher type: a base type name or `LIST<...>`. -/
inductive CyType where
  | base (s : String)
  | list (t : CyType)
  deriving DecidableEq, Repr

/-- `compileType`: base types compile to their name; `ListType.getCypher`
wraps the compiled inner type in `LIST<...>`.  The Environment is not
consulted anywhere in type compilation, so it is omitted from the
signature. -/
def compileType : CyType → String
  | .base s => s
  | .list t => "LIST<" ++ compileType t ++ ">"

/-- The `IsType` node state (`expr`, `type`, `not`, `_notNull`). -/
structure IsType where
  expr : CNode
  type : List CyType
  not : Bool
  notNullF : Bool
  deriving DecidableEq, Repr

/-- The `isType` helper: `new IsType(expr, asArray(type))`. -/
def isType (e : CNode) (ts : List CyType) : IsType := ⟨e, ts, false, false⟩

/-- The `isNotType` helper: `new IsType(expr, asArray(type), true)`. -/
def isNotType (e : CNode) (ts : List CyType) : IsType := ⟨e, ts, true, false⟩

/-- `IsType.notNull()`: sets the `_notNull` flag (returns the updated node;
this is the only mutating method, and it is not part of rendering). -/
def IsType.notNull (it : IsType) : IsType := { it with notNullF := true }

/-- `IsType.getCypher`: compiled expression, `IS`/`IS NOT`, ` :: `, and the
types joined by ` | `, each type suffixed by ` NOT NULL` when the `_notNull`
flag is set.  The node's own state is returned unchanged alongside the
text. -/
def IsType.getCypher (it : IsType) (e : Env) : Except Err (String × IsType × Env) :=
  match render it.expr e with
  | .ok (exprCypher, _, e1) =>
    let isStr := if it.not then "IS NOT" else "IS"
    let notNullStr := if it.notNullF then " NOT NULL" else ""
    .ok (exprCypher ++ " " ++ isStr ++ " :: "
      ++ String.intercalate " | " (it.type.map (fun t => compileType t ++ notNullStr)),
      it, e1)
  | .error err => .error err

/-! ## Behaviour of the regex rewrites -/

theorem matchIdNum_shape {s : List Char} (h : matchIdNum s ≠ none) :
    ∃ rest, s = 'i' :: 'd' :: ':' :: rest := by
  unfold matchIdNum at h
  split at h
  · next rest => exact ⟨rest, rfl⟩
  · simp at h

theorem matchIdNum_none_of_no_colon {s : List Char} (h : ':' ∉ s) :
    matchIdNum s = none := by
  by_contra hne
  obtain ⟨rest, hrest⟩ := matchIdNum_shape hne
  subst hrest
  simp at h

theorem matchLabelsNum_shape {s : List Char} (h : matchLabelsNum s ≠ none) :
    ∃ rest, s = 'l' :: 'a' :: 'b' :: 'e' :: 'l' :: 's' :: ':' :: rest := by
  unfold matchLabelsNum at h
  split at h
  · next rest => exact ⟨rest, rfl⟩
  · simp at h

theorem matchLabelsNum_none_of_no_colon {s : List Char} (h : ':' ∉ s) :
    matchLabelsNum s = none := by
  by_contra hne
  obtain ⟨rest, hrest⟩ := matchLabelsNum_shape hne
  subst hrest
  simp at h

theorem matchIdNum_dot {s : List Char} (h : matchIdNum s ≠ none) : '.' ∈ s := by
  unfold matchIdNum at h
  split at h
  · next rest =>
    simp only [List.mem_cons]
    right; right; right
    split at h
    · next r2 heq =>
      split at h
      · next heq2 =>
        have hd : '.' ∈ r2.dropWhile Char.isDigit := by rw [heq2]; simp
        have h2 : '.' ∈ r2 := (List.dropWhile_sublist _).subset hd
        have h3 : '.' ∈ rest.dropWhile isWS := by rw [heq]; simp [h2]
        exact (List.dropWhile_sublist _).subset h3
      · exact absurd rfl h
    · exact absurd rfl h
  · exact absurd rfl h

theorem matchLabelsNum_dot {s : List Char} (h : matchLabelsNum s ≠ none) : '.' ∈ s := by
  unfold matchLabelsNum at h
  split at h
  · next rest =>
    simp only [List.mem_cons]
    right; right; right; right; right; right; right
    split at h
    · next r2 heq =>
      split at h
      · next heq2 =>
        have hd : '.' ∈ r2.dropWhile Char.isDigit := by rw [heq2]; simp
        have h2 : '.' ∈ r2 := (List.dropWhile_sublist _).subset hd
        have h3 : '.' ∈ rest.dropWhile isWS := by rw [heq]; simp [h2]
        exact (List.dropWhile_sublist _).subset h3
      · exact absurd rfl h
    · exact absurd rfl h
  · exact absurd rfl h

theorem rewriteIdGo_skip {c : Char} {t : List Char} (hc : c ≠ '.')
    (hm : matchIdNum (c :: t) = none) :
    rewriteIdGo 0 (c :: t) = c :: rewriteIdGo 0 t := by
  rw [rewriteIdGo.eq_def]
  split
  · next h1 => omega
  · next h1 => simp at h1
  · next r h1 =>
    simp at h1
    exact absurd h1.1 hc
  · next c2 rest _ heq0 heq =>
    simp only [List.cons.injEq] at heq
    rw [← heq.1, ← heq.2, hm]

theorem rewriteIdGo_matched {c : Char} {t ds : List Char} {k : Nat} (hc : c ≠ '.')
    (hm : matchIdNum (c :: t) = some (ds, k)) :
    rewriteIdGo 0 (c :: t) = "id: id(this".data ++ ds ++ [')'] ++ rewriteIdGo (k - 1) t := by
  rw [rewriteIdGo.eq_def]
  split
  · next h1 => omega
  · next h1 => simp at h1
  · next r h1 =>
    simp at h1
    exact absurd h1.1 hc
  · next c2 rest _ heq0 heq =>
    simp only [List.cons.injEq] at heq
    rw [← heq.1, ← heq.2, hm]

theorem rewriteLabelsGo_skip {c : Char} {t : List Char} (hc : c ≠ '.')
    (hm : matchLabelsNum (c :: t) = none) :
    rewriteLabelsGo 0 (c :: t) = c :: rewriteLabelsGo 0 t := by
  rw [rewriteLabelsGo.eq_def]
  split
  · next h1 => omega
  · next h1 => simp at h1
  · next r h1 =>
    simp at h1
    exact absurd h1.1 hc
  · next c2 rest _ heq0 heq =>
    simp only [List.cons.injEq] at heq
    rw [← heq.1, ← heq.2, hm]

theorem rewriteLabelsGo_matched {c : Char} {t ds : List Char} {k : Nat} (hc : c ≠ '.')
    (hm : matchLabelsNum (c :: t) = some (ds, k)) :
    rewriteLabelsGo 0 (c :: t)
      = "labels: labels(this".data ++ ds ++ [')'] ++ rewriteLabelsGo (k - 1) t := by
  rw [rewriteLabelsGo.eq_def]
  split
  · next h1 => omega
  · next h1 => simp at h1
  · next r h1 =>
    simp at h1
    exact absurd h1.1 hc
  · next c2 rest _ heq0 heq =>
    simp only [List.cons.injEq] at heq
    rw [← heq.1, ← heq.2, hm]

/-- A text without dots is left unchanged by the id rewrite (both regex
alternatives contain a literal dot). -/
theorem rewriteIdGo_self : ∀ {s : List Char}, '.' ∉ s → rewriteIdGo 0 s = s := by
  intro s
  induction s with
  | nil => intro _; rfl
  | cons c t ih =>
    intro h
    simp only [List.mem_cons, not_or] at h
    have hm : matchIdNum (c :: t) = none := by
      by_contra hne
      have := matchIdNum_dot hne
      simp only [List.mem_cons] at this
      rcases this with h1 | h1
      · exact h.1 h1
      · exact h.2 h1
    rw [rewriteIdGo_skip (fun he => h.1 he.symm) hm, ih h.2]

/-- A text without dots is left unchanged by the labels rewrite. -/
theorem rewriteLabelsGo_self : ∀ {s : List Char}, '.' ∉ s → rewriteLabelsGo 0 s = s := by
  intro s
  induction s with
  | nil => intro _; rfl
  | cons c t ih =>
    intro h
    simp only [List.mem_cons, not_or] at h
    have hm : matchLabelsNum (c :: t) = none := by
      by_contra hne
      have := matchLabelsNum_dot hne
      simp only [List.mem_cons] at this
      rcases this with h1 | h1
      · exact h.1 h1
      · exact h.2 h1
    rw [rewriteLabelsGo_skip (fun he => h.1 he.symm) hm, ih h.2]

/-- The id scan copies a run of alphabetic characters unchanged provided the
remainder of the input contains no colon. -/
theorem rewriteIdGo_append : ∀ {v rest : List Char}, (∀ c ∈ v, c.isAlpha) →
    ':' ∉ rest → rewriteIdGo 0 (v ++ rest) = v ++ rewriteIdGo 0 rest := by
  intro v
  induction v with
  | nil => intro rest _ _; rfl
  | cons c t ih =>
    intro rest hv hr
    have hca : c.isAlpha := hv c (by simp)
    have hc : c ≠ '.' := by
      intro he
      rw [he] at hca
      exact absurd hca (by decide)
    have hcolon : ':' ∉ (c :: t) ++ rest := by
      intro hmem
      simp only [List.cons_append, List.mem_cons, List.mem_append] at hmem
      rcases hmem with h1 | h1 | h1
      · have := hv c (by simp)
        rw [← h1] at this
        exact absurd this (by decide)
      · have := hv ':' (by simp [h1])
        exact absurd this (by decide)
      · exact hr h1
    have hm : matchIdNum (c :: (t ++ rest)) = none := by
      apply matchIdNum_none_of_no_colon
      simpa using hcolon
    rw [List.cons_append, rewriteIdGo_skip hc hm,
      ih (fun d hd => hv d (by simp [hd])) hr]
    exact (List.cons_append _ _ _).symm

/-- The labels scan copies a run of alphabetic characters unchanged provided
the remainder of the input contains no colon. -/
theorem rewriteLabelsGo_append : ∀ {v rest : List Char}, (∀ c ∈ v, c.isAlpha) →
    ':' ∉ rest → rewriteLabelsGo 0 (v ++ rest) = v ++ rewriteLabelsGo 0 rest := by
  intro v
  induction v with
  | nil => intro rest _ _; rfl
  | cons c t ih =>
    intro rest hv hr
    have hca : c.isAlpha := hv c (by simp)
    have hc : c ≠ '.' := by
      intro he
      rw [he] at hca
      exact absurd hca (by decide)
    have hcolon : ':' ∉ (c :: t) ++ rest := by
      intro hmem
      simp only [List.cons_append, List.mem_cons, List.mem_append] at hmem
      rcases hmem with h1 | h1 | h1
      · have := hv c (by simp)
        rw [← h1] at this
        exact absurd this (by decide)
      · have := hv ':' (by simp [h1])
        exact absurd this (by decide)
      · exact hr h1
    have hm : matchLabelsNum (c :: (t ++ rest)) = none := by
      apply matchLabelsNum_none_of_no_colon
      simpa using hcolon
    rw [List.cons_append, rewriteLabelsGo_skip hc hm,
      ih (fun d hd => hv d (by simp [hd])) hr]
    exact (List.cons_append _ _ _).symm

/-- Skipping exactly the length of a leading block resumes the scan after
it. -/
theorem rewriteIdGo_skipN : ∀ (l tail : List Char),
    rewriteIdGo l.length (l ++ tail) = rewriteIdGo 0 tail := by
  intro l
  induction l with
  | nil => intro tail; rfl
  | cons c t ih => intro tail; simp only [List.length_cons, List.cons_append]; exact ih tail

theorem rewriteLabelsGo_skipN : ∀ (l tail : List Char),
    rewriteLabelsGo l.length (l ++ tail) = rewriteLabelsGo 0 tail := by
  intro l
  induction l with
  | nil => intro tail; rfl
  | cons c t ih => intro tail; simp only [List.length_cons, List.cons_append]; exact ih tail

theorem takeWhile_append_all {p : Char → Bool} : ∀ {l r : List Char},
    (∀ c ∈ l, p c) → List.takeWhile p (l ++ r) = l ++ List.takeWhile p r := by
  intro l
  induction l with
  | nil => intro r _; rfl
  | cons c t ih =>
    intro r h
    have : p c := h c (by simp)
    simp [List.takeWhile, this, ih (fun d hd => h d (by simp [hd]))]

theorem dropWhile_append_all {p : Char → Bool} : ∀ {l r : List Char},
    (∀ c ∈ l, p c) → List.dropWhile p (l ++ r) = List.dropWhile p r := by
  intro l
  induction l with
  | nil => intro r _; rfl
  | cons c t ih =>
    intro r h
    have : p c := h c (by simp)
    simp [List.dropWhile, this, ih (fun d hd => h d (by simp [hd]))]

theorem takeWhile_ws_this (r : List Char) :
    List.takeWhile isWS (' ' :: 't' :: r) = [' '] := by
  simp [List.takeWhile, isWS]

theorem dropWhile_ws_this (r : List Char) :
    List.dropWhile isWS (' ' :: 't' :: r) = 't' :: r := by
  simp [List.dropWhile, isWS]

theorem dot_not_mem_digits {ds : List Char} (hd : ∀ c ∈ ds, c.isDigit) : '.' ∉ ds := by
  intro hmem
  have := hd '.' hmem
  exact absurd this (by decide)

/-- The first regex alternative fires on the exact shape `id: thisN.id` and
captures the digits `N`. -/
theorem matchIdNum_numbered {ds : List Char} (tail : List Char)
    (hd : ∀ c ∈ ds, c.isDigit) (hne : ds ≠ []) :
    matchIdNum
        ('i' :: 'd' :: ':' :: ' ' :: 't' :: 'h' :: 'i' :: 's'
          :: (ds ++ '.' :: 'i' :: 'd' :: tail))
      = some (ds, ds.length + 11) := by
  have htk : List.takeWhile Char.isDigit (ds ++ '.' :: 'i' :: 'd' :: tail) = ds := by
    rw [takeWhile_append_all hd]
    simp [List.takeWhile]
  have hdp : List.dropWhile Char.isDigit (ds ++ '.' :: 'i' :: 'd' :: tail)
      = '.' :: 'i' :: 'd' :: tail := by
    rw [dropWhile_append_all hd]
    simp [List.dropWhile]
  simp only [matchIdNum, takeWhile_ws_this, dropWhile_ws_this]
  simp only [htk, hdp, List.isEmpty_iff, hne, if_false]
  congr 1
  simp
  omega

/-- The first labels regex alternative fires on the exact shape
`labels: thisN.labels` and captures the digits `N`. -/
theorem matchLabelsNum_numbered {ds : List Char} (tail : List Char)
    (hd : ∀ c ∈ ds, c.isDigit) (hne : ds ≠ []) :
    matchLabelsNum
        ('l' :: 'a' :: 'b' :: 'e' :: 'l' :: 's' :: ':' :: ' ' :: 't' :: 'h' :: 'i' :: 's'
          :: (ds ++ '.' :: 'l' :: 'a' :: 'b' :: 'e' :: 'l' :: 's' :: tail))
      = some (ds, ds.length + 19) := by
  have htk : List.takeWhile Char.isDigit
      (ds ++ '.' :: 'l' :: 'a' :: 'b' :: 'e' :: 'l' :: 's' :: tail) = ds := by
    rw [takeWhile_append_all hd]
    simp [List.takeWhile]
  have hdp : List.dropWhile Char.isDigit
      (ds ++ '.' :: 'l' :: 'a' :: 'b' :: 'e' :: 'l' :: 's' :: tail)
      = '.' :: 'l' :: 'a' :: 'b' :: 'e' :: 'l' :: 's' :: tail := by
    rw [dropWhile_append_all hd]
    simp [List.dropWhile]
  simp only [matchLabelsNum, takeWhile_ws_this, dropWhile_ws_this]
  simp only [htk, hdp, List.isEmpty_iff, hne, if_false]
  congr 1
  simp
  omega

/-- A bare `.id` after a run of alphabetic characters is replaced by the
fixed text `id: id(this)` (the callback receives no digit group and falls
back to the literal variable name `this`). -/
theorem rewriteIdGo_bare (v : List Char) (hv : ∀ c ∈ v, c.isAlpha) :
    rewriteIdGo 0 (v ++ ".id".data) = v ++ "id: id(this)".data := by
  rw [rewriteIdGo_append hv (by decide)]
  rfl

/-- The numbered shape `id: thisN.id` is replaced by `id: id(thisN)`,
preserving the digits. -/
theorem rewriteIdGo_numbered {ds : List Char} (hd : ∀ c ∈ ds, c.isDigit)
    (hne : ds ≠ []) :
    rewriteIdGo 0 ("id: this".data ++ ds ++ ".id".data)
      = "id: id(this".data ++ ds ++ [')'] := by
  have hshape : "id: this".data ++ ds ++ ".id".data
      = 'i' :: ('d' :: ':' :: ' ' :: 't' :: 'h' :: 'i' :: 's' :: (ds ++ '.' :: 'i' :: 'd' :: [])) := by
    simp
  rw [hshape]
  rw [rewriteIdGo_matched (by decide) (matchIdNum_numbered [] hd hne)]
  have hlen : ('d' :: ':' :: ' ' :: 't' :: 'h' :: 'i' :: 's' :: (ds ++ '.' :: 'i' :: 'd' :: [])).length
      = ds.length + 10 := by simp
  have hskip : rewriteIdGo (ds.length + 11 - 1)
      ('d' :: ':' :: ' ' :: 't' :: 'h' :: 'i' :: 's' :: (ds ++ '.' :: 'i' :: 'd' :: [])) = [] := by
    have := rewriteIdGo_skipN
      ('d' :: ':' :: ' ' :: 't' :: 'h' :: 'i' :: 's' :: (ds ++ '.' :: 'i' :: 'd' :: [])) []
    rw [List.append_nil] at this
    rw [hlen] at this
    have harith : ds.length + 11 - 1 = ds.length + 10 := by omega
    rw [harith]
    exact this
  rw [hskip]
  simp

/-- A bare `.labels` after a run of alphabetic characters is replaced by the
fixed text `labels: labels(this)`. -/
theorem rewriteLabelsGo_bare (v : List Char) (hv : ∀ c ∈ v, c.isAlpha) :
    rewriteLabelsGo 0 (v ++ ".labels".data) = v ++ "labels: labels(this)".data := by
  rw [rewriteLabelsGo_append hv (by decide)]
  rfl

/-- The numbered shape `labels: thisN.labels` is replaced by
`labels: labels(thisN)`, preserving the digits. -/
theorem rewriteLabelsGo_numbered {ds : List Char} (hd : ∀ c ∈ ds, c.isDigit)
    (hne : ds ≠ []) :
    rewriteLabelsGo 0 ("labels: this".data ++ ds ++ ".labels".data)
      = "labels: labels(this".data ++ ds ++ [')'] := by
  have hshape : "labels: this".data ++ ds ++ ".labels".data
      = 'l' :: ('a' :: 'b' :: 'e' :: 'l' :: 's' :: ':' :: ' ' :: 't' :: 'h' :: 'i' :: 's'
          :: (ds ++ '.' :: 'l' :: 'a' :: 'b' :: 'e' :: 'l' :: 's' :: [])) := by
    simp
  rw [hshape]
  rw [rewriteLabelsGo_matched (by decide) (matchLabelsNum_numbered [] hd hne)]
  have hlen : ('a' :: 'b' :: 'e' :: 'l' :: 's' :: ':' :: ' ' :: 't' :: 'h' :: 'i' :: 's'
      :: (ds ++ '.' :: 'l' :: 'a' :: 'b' :: 'e' :: 'l' :: 's' :: [])).length
      = ds.length + 18 := by simp
  have hskip : rewriteLabelsGo (ds.length + 19 - 1)
      ('a' :: 'b' :: 'e' :: 'l' :: 's' :: ':' :: ' ' :: 't' :: 'h' :: 'i' :: 's'
        :: (ds ++ '.' :: 'l' :: 'a' :: 'b' :: 'e' :: 'l' :: 's' :: [])) = [] := by
    have := rewriteLabelsGo_skipN
      ('a' :: 'b' :: 'e' :: 'l' :: 's' :: ':' :: ' ' :: 't' :: 'h' :: 'i' :: 's'
        :: (ds ++ '.' :: 'l' :: 'a' :: 'b' :: 'e' :: 'l' :: 's' :: [])) []
    rw [List.append_nil] at this
    rw [hlen] at this
    have harith : ds.length + 19 - 1 = ds.length + 18 := by omega
    rw [harith]
    exact this
  rw [hskip]
  simp

theorem matchIdNum_none_head {c : Char} (t : List Char) (hc : c ≠ 'i') :
    matchIdNum (c :: t) = none := by
  by_contra h
  obtain ⟨rest, hr⟩ := matchIdNum_shape h
  simp only [List.cons.injEq] at hr
  exact hc hr.1

/-- The id scan copies a run of digit characters unchanged. -/
theorem rewriteIdGo_append_digits : ∀ {v rest : List Char}, (∀ c ∈ v, c.isDigit) →
    rewriteIdGo 0 (v ++ rest) = v ++ rewriteIdGo 0 rest := by
  intro v
  induction v with
  | nil => intro rest _; rfl
  | cons c t ih =>
    intro rest hv
    have hcd : c.isDigit := hv c (by simp)
    have hc : c ≠ '.' := by
      intro he; rw [he] at hcd; exact absurd hcd (by decide)
    have hci : c ≠ 'i' := by
      intro he; rw [he] at hcd; exact absurd hcd (by decide)
    rw [List.cons_append, rewriteIdGo_skip hc (matchIdNum_none_head _ hci),
      ih (fun d hd => hv d (by simp [hd]))]
    exact (List.cons_append _ _ _).symm

/-- The id scan copies the text `labels: this` unchanged (no position in it
starts an id match). -/
theorem rewriteIdGo_labelsPrefix (r : List Char) :
    rewriteIdGo 0 ("labels: this".data ++ r) = "labels: this".data ++ rewriteIdGo 0 r := by
  show rewriteIdGo 0
      ('l' :: 'a' :: 'b' :: 'e' :: 'l' :: 's' :: ':' :: ' ' :: 't' :: 'h' :: 'i' :: 's' :: r)
    = 'l' :: 'a' :: 'b' :: 'e' :: 'l' :: 's' :: ':' :: ' ' :: 't' :: 'h' :: 'i' :: 's'
        :: rewriteIdGo 0 r
  have his : matchIdNum ('i' :: 's' :: r) = none := by
    by_contra h
    obtain ⟨rest, hr⟩ := matchIdNum_shape h
    simp at hr
  rw [rewriteIdGo_skip (by decide) (matchIdNum_none_head _ (by decide)),
    rewriteIdGo_skip (by decide) (matchIdNum_none_head _ (by decide)),
    rewriteIdGo_skip (by decide) (matchIdNum_none_head _ (by decide)),
    rewriteIdGo_skip (by decide) (matchIdNum_none_head _ (by decide)),
    rewriteIdGo_skip (by decide) (matchIdNum_none_head _ (by decide)),
    rewriteIdGo_skip (by decide) (matchIdNum_none_head _ (by decide)),
    rewriteIdGo_skip (by decide) (matchIdNum_none_head _ (by decide)),
    rewriteIdGo_skip (by decide) (matchIdNum_none_head _ (by decide)),
    rewriteIdGo_skip (by decide) (matchIdNum_none_head _ (by decide)),
    rewriteIdGo_skip (by decide) (matchIdNum_none_head _ (by decide)),
    rewriteIdGo_skip (by decide) his,
    rewriteIdGo_skip (by decide) (matchIdNum_none_head _ (by decide))]

/-! ## String-level behaviour of `serializeColumn` -/

theorem serializeColumn_plain_raw (s : String) (e : Env) :
    serializeColumn (.plain (.raw s)) e = .ok (rewriteLabels (rewriteId s), e) := rfl

theorem serializeColumn_aliased_raw (s a : String) (e : Env) :
    serializeColumn (.aliased (.raw s) (.lit a)) e
      = .ok (rewriteLabels (rewriteId s) ++ " AS " ++ a, e) := rfl

theorem rewriteId_self_str {s : String} (h : '.' ∉ s.data) : rewriteId s = s :=
  String.ext (rewriteIdGo_self h)

theorem rewriteLabels_self_str {s : String} (h : '.' ∉ s.data) : rewriteLabels s = s :=
  String.ext (rewriteLabelsGo_self h)

theorem alpha_no_dot {l : List Char} (hv : ∀ c ∈ l, c.isAlpha) : '.' ∉ l := by
  intro hmem
  exact absurd (hv '.' hmem) (by decide)

/-- Serializer output for a bare `.id` after an alphabetic run: the fixed
replacement `id: id(this)`. -/
theorem projRewrite_bare_id (sv : String) (hv : ∀ c ∈ sv.data, c.isAlpha) :
    rewriteLabels (rewriteId (sv ++ ".id")) = sv ++ "id: id(this)" := by
  have h1 : rewriteId (sv ++ ".id") = sv ++ "id: id(this)" := by
    apply String.ext
    show rewriteIdGo 0 (sv ++ ".id").data = (sv ++ "id: id(this)").data
    rw [String.data_append, String.data_append]
    exact rewriteIdGo_bare sv.data hv
  rw [h1]
  apply rewriteLabels_self_str
  rw [String.data_append]
  intro hmem
  rcases List.mem_append.mp hmem with h | h
  · exact alpha_no_dot hv h
  · simp at h

/-- Serializer output for the numbered shape `id: thisN.id`: the digits are
preserved. -/
theorem projRewrite_numbered_id {ds : List Char} (hd : ∀ c ∈ ds, c.isDigit)
    (hne : ds ≠ []) :
    rewriteLabels (rewriteId ⟨"id: this".data ++ ds ++ ".id".data⟩)
      = ⟨"id: id(this".data ++ ds ++ [')']⟩ := by
  have h1 : rewriteId ⟨"id: this".data ++ ds ++ ".id".data⟩
      = ⟨"id: id(this".data ++ ds ++ [')']⟩ := by
    apply String.ext
    show rewriteIdGo 0 ("id: this".data ++ ds ++ ".id".data) = _
    rw [rewriteIdGo_numbered hd hne]
  rw [h1]
  apply rewriteLabels_self_str
  show '.' ∉ "id: id(this".data ++ ds ++ [')']
  intro hmem
  rcases List.mem_append.mp hmem with h | h
  · rcases List.mem_append.mp h with h | h
    · simp at h
    · exact dot_not_mem_digits hd h
  · simp at h

/-- Serializer output for a bare `.labels` after an alphabetic run: the fixed
replacement `labels: labels(this)`. -/
theorem projRewrite_bare_labels (sv : String) (hv : ∀ c ∈ sv.data, c.isAlpha) :
    rewriteLabels (rewriteId (sv ++ ".labels")) = sv ++ "labels: labels(this)" := by
  have h1 : rewriteId (sv ++ ".labels") = sv ++ ".labels" := by
    apply String.ext
    show rewriteIdGo 0 (sv ++ ".labels").data = (sv ++ ".labels").data
    rw [String.data_append]
    rw [rewriteIdGo_append hv (by decide)]
    rfl
  rw [h1]
  apply String.ext
  show rewriteLabelsGo 0 (sv ++ ".labels").data = (sv ++ "labels: labels(this)").data
  rw [String.data_append, String.data_append]
  rw [rewriteLabelsGo_append hv (by decide)]
  rfl

/-- Serializer output for the numbered shape `labels: thisN.labels`: the
digits are preserved. -/
theorem projRewrite_numbered_labels {ds : List Char} (hd : ∀ c ∈ ds, c.isDigit)
    (hne : ds ≠ []) :
    rewriteLabels (rewriteId ⟨"labels: this".data ++ ds ++ ".labels".data⟩)
      = ⟨"labels: labels(this".data ++ ds ++ [')']⟩ := by
  have h1 : rewriteId ⟨"labels: this".data ++ ds ++ ".labels".data⟩
      = ⟨"labels: this".data ++ ds ++ ".labels".data⟩ := by
    apply String.ext
    show rewriteIdGo 0 ("labels: this".data ++ ds ++ ".labels".data) = _
    rw [List.append_assoc, rewriteIdGo_labelsPrefix, rewriteIdGo_append_digits hd]
    rw [show rewriteIdGo 0 ".labels".data = ".labels".data from rfl]
  rw [h1]
  apply String.ext
  show rewriteLabelsGo 0 ("labels: this".data ++ ds ++ ".labels".data) = _
  rw [rewriteLabelsGo_numbered hd hne]

/-! ## Claim theorems -/

/-- C1, counterexample.  The claim says every `.id` occurrence is rewritten
into `id(...)` applied to a variable name extracted from the rendered text.
For the plain column rendering to `var0.id`, the serializer instead produces
`var0id: id(this)`: the argument of the inserted `id(...)` call is the fixed
name `this`, which does not occur anywhere in the rendered text `var0.id`,
so no variable name was extracted from it (and the rendered text is mangled
rather than wrapped). -/
theorem claim_C1_counterexample :
    serializeColumn (.plain (.seq (.varRef ⟨0, some "var0"⟩) (.raw ".id"))) (Env.init "")
      = .ok ("var0id: id(this)", ⟨"", [(⟨0, some "var0"⟩, "var0")], 0⟩)
    ∧ (render (.seq (.varRef ⟨0, some "var0"⟩) (.raw ".id")) (Env.init "")).map (fun r => r.1)
      = .ok "var0.id"
    ∧ containsSub "var0.id".data "this".data = false :=
  ⟨rfl, rfl, rfl⟩

/-- C1, amended.  For every projection column (aliased or plain), the
serializer post-processes the already-rendered expression text before the
optional ` AS alias` suffix is appended: a bare `.id` occurrence (here, after
an alphabetic run) is replaced by the fixed text `id: id(this)` — the literal
variable name `this`, not a name extracted from the rendered text — and a
bare `.labels` occurrence by `labels: labels(this)` likewise. -/
theorem claim_C1 : ∀ (sv a : String) (e : Env), (∀ c ∈ sv.data, c.isAlpha) →
    (serializeColumn (.plain (.raw (sv ++ ".id"))) e = .ok (sv ++ "id: id(this)", e))
    ∧ (serializeColumn (.aliased (.raw (sv ++ ".id")) (.lit a)) e
        = .ok (sv ++ "id: id(this)" ++ " AS " ++ a, e))
    ∧ (serializeColumn (.plain (.raw (sv ++ ".labels"))) e
        = .ok (sv ++ "labels: labels(this)", e))
    ∧ (serializeColumn (.aliased (.raw (sv ++ ".labels")) (.lit a)) e
        = .ok (sv ++ "labels: labels(this)" ++ " AS " ++ a, e)) := by
  intro sv a e hv
  refine ⟨?_, ?_, ?_, ?_⟩
  · rw [serializeColumn_plain_raw, projRewrite_bare_id sv hv]
  · rw [serializeColumn_aliased_raw, projRewrite_bare_id sv hv]
  · rw [serializeColumn_plain_raw, projRewrite_bare_labels sv hv]
  · rw [serializeColumn_aliased_raw, projRewrite_bare_labels sv hv]

/-- Witness for C1 (amended) at `sv = "foo"`, alias `"out"`. -/
theorem claim_C1_witness :
    (serializeColumn (.plain (.raw ("foo" ++ ".id"))) (Env.init "")
      = .ok ("foo" ++ "id: id(this)", Env.init ""))
    ∧ (serializeColumn (.aliased (.raw ("foo" ++ ".id")) (.lit "out")) (Env.init "")
        = .ok ("foo" ++ "id: id(this)" ++ " AS " ++ "out", Env.init ""))
    ∧ (serializeColumn (.plain (.raw ("foo" ++ ".labels"))) (Env.init "")
        = .ok ("foo" ++ "labels: labels(this)", Env.init ""))
    ∧ (serializeColumn (.aliased (.raw ("foo" ++ ".labels")) (.lit "out")) (Env.init "")
        = .ok ("foo" ++ "labels: labels(this)" ++ " AS " ++ "out", Env.init "")) :=
  claim_C1 "foo" "out" (Env.init "") (by decide)

/-- C2.  The projection rewrite misfires on a look-alike substring: the plain
column accessing property `identifier` (not `id`, not `labels`) renders to
`this0.identifier`, whose `.id` substring is merely the head of
`.identifier`; `serializeColumn` nevertheless rewrites it, yielding
`this0id: id(this)entifier`, different from the faithful rendering. -/
theorem claim_C2 :
    (render (.seq (.varRef ⟨0, none⟩) (.raw ".identifier")) (Env.init "")).map (fun r => r.1)
      = .ok "this0.identifier"
    ∧ (serializeColumn (.plain (.seq (.varRef ⟨0, none⟩) (.raw ".identifier")))
        (Env.init "")).map (fun r => r.1)
      = .ok "this0id: id(this)entifier"
    ∧ ("this0id: id(this)entifier" : String) ≠ "this0.identifier"
    ∧ containsSub "this0.identifier".data ".id".data = true
    ∧ containsSub "this0.identifier".data ".identifier".data = true :=
  ⟨rfl, rfl, by decide, rfl, rfl⟩

/-- C3.  In the serializer, a `.id` occurrence in a position not matching the
shape `id: thisN.id` (here, after an alphabetic run) is replaced by the fixed
text `id: id(this)` — the literal variable `this` with no numeric suffix —
while the variable's number is preserved exactly when the text matches
`id: thisN.id` (replaced by `id: id(thisN)`); the same holds for `.labels`
with `labels: labels(this)` / `labels: labels(thisN)`. -/
theorem claim_C3 : ∀ (sv : String) (ds : List Char) (e : Env),
    (∀ c ∈ sv.data, c.isAlpha) → (∀ c ∈ ds, c.isDigit) → ds ≠ [] →
    (serializeColumn (.plain (.raw (sv ++ ".id"))) e = .ok (sv ++ "id: id(this)", e))
    ∧ (serializeColumn (.plain (.raw ⟨"id: this".data ++ ds ++ ".id".data⟩)) e
        = .ok (⟨"id: id(this".data ++ ds ++ [')']⟩, e))
    ∧ (serializeColumn (.plain (.raw (sv ++ ".labels"))) e
        = .ok (sv ++ "labels: labels(this)", e))
    ∧ (serializeColumn (.plain (.raw ⟨"labels: this".data ++ ds ++ ".labels".data⟩)) e
        = .ok (⟨"labels: labels(this".data ++ ds ++ [')']⟩, e)) := by
  intro sv ds e hv hd hne
  refine ⟨?_, ?_, ?_, ?_⟩
  · rw [serializeColumn_plain_raw, projRewrite_bare_id sv hv]
  · rw [serializeColumn_plain_raw, projRewrite_numbered_id hd hne]
  · rw [serializeColumn_plain_raw, projRewrite_bare_labels sv hv]
  · rw [serializeColumn_plain_raw, projRewrite_numbered_labels hd hne]

/-- Witness for C3 at `sv = "foo"`, digits `"3"`: `foo.id` becomes
`fooid: id(this)` while `id: this3.id` becomes `id: id(this3)`. -/
theorem claim_C3_witness :
    (serializeColumn (.plain (.raw ("foo" ++ ".id"))) (Env.init "")
      = .ok ("foo" ++ "id: id(this)", Env.init ""))
    ∧ (serializeColumn (.plain (.raw "id: this3.id")) (Env.init "")
        = .ok ("id: id(this3)", Env.init ""))
    ∧ (serializeColumn (.plain (.raw ("foo" ++ ".labels"))) (Env.init "")
        = .ok ("foo" ++ "labels: labels(this)", Env.init ""))
    ∧ (serializeColumn (.plain (.raw "labels: this3.labels")) (Env.init "")
        = .ok ("labels: labels(this3)", Env.init "")) :=
  claim_C3 "foo" ['3'] (Env.init "") (by decide) (by decide) (by decide)

/-- C4.  Rendering an AST node never mutates the node's own structure: on
success, `Projection.getCypher` returns the projection's columns and star
flag unchanged and `IsType.getCypher` returns its expression, type list and
flags unchanged, and therefore rendering the same node again with a second,
different Environment gives exactly the render of the original node with
that Environment (two independently valid outputs, no cross-contamination). -/
theorem claim_C4 : ∀ (p : Projection) (it : IsType) (e1 e2 : Env),
    (∀ s pr e1', Projection.getCypher p e1 = .ok (s, pr, e1') →
      pr = p ∧ Projection.getCypher pr e2 = Projection.getCypher p e2)
    ∧ (∀ s it2 e1', IsType.getCypher it e1 = .ok (s, it2, e1') →
      it2 = it ∧ IsType.getCypher it2 e2 = IsType.getCypher it e2) := by
  intro p it e1 e2
  constructor
  · intro s pr e1' h
    unfold Projection.getCypher at h
    cases hs : serializeAll p.columns e1 with
    | ok r =>
      obtain ⟨strs, e''⟩ := r
      rw [hs] at h
      simp only [Except.ok.injEq, Prod.mk.injEq] at h
      obtain ⟨_, hpr, _⟩ := h
      subst hpr
      exact ⟨rfl, rfl⟩
    | error err => rw [hs] at h; exact Except.noConfusion h
  · intro s it2 e1' h
    unfold IsType.getCypher at h
    cases hr : render it.expr e1 with
    | ok r =>
      obtain ⟨sx, tr, e''⟩ := r
      rw [hr] at h
      simp only [Except.ok.injEq, Prod.mk.injEq] at h
      obtain ⟨_, hit, _⟩ := h
      subst hit
      exact ⟨rfl, rfl⟩
    | error err => rw [hr] at h; exact Except.noConfusion h

/-- Witness for C4 at a concrete projection, type predicate and two distinct
Environments. -/
theorem claim_C4_witness :
    ((⟨[.plain (.raw "x"), .aliased (.raw "n.title") (.lit "t")], true⟩ : Projection)
        = ⟨[.plain (.raw "x"), .aliased (.raw "n.title") (.lit "t")], true⟩
      ∧ Projection.getCypher
          ⟨[.plain (.raw "x"), .aliased (.raw "n.title") (.lit "t")], true⟩ (Env.init "pre")
        = Projection.getCypher
          ⟨[.plain (.raw "x"), .aliased (.raw "n.title") (.lit "t")], true⟩ (Env.init "pre"))
    ∧ ((isType (.raw "val") [.base "INTEGER"]) = isType (.raw "val") [.base "INTEGER"]
      ∧ IsType.getCypher (isType (.raw "val") [.base "INTEGER"]) (Env.init "pre")
        = IsType.getCypher (isType (.raw "val") [.base "INTEGER"]) (Env.init "pre")) :=
  ⟨(claim_C4 ⟨[.plain (.raw "x"), .aliased (.raw "n.title") (.lit "t")], true⟩
      (isType (.raw "val") [.base "INTEGER"]) (Env.init "") (Env.init "pre")).1
      "*, x, n.title AS t" _ (Env.init "") rfl,
    (claim_C4 ⟨[.plain (.raw "x"), .aliased (.raw "n.title") (.lit "t")], true⟩
      (isType (.raw "val") [.base "INTEGER"]) (Env.init "") (Env.init "pre")).2
      "val IS :: INTEGER" _ (Env.init "") rfl⟩

/-- C5.  Compilation is deterministic: two freshly-constructed equivalent
trees — identical up to an injective renaming of their Variable identity
objects, sharing none — build to identical text under the same prefix
(rendering is a pure function of the tree and the Environment state). -/
theorem claim_C5 : ∀ (t : CNode) (f : Nat → Nat) (p : String),
    Function.Injective f → buildCypher (renameTree f t) p = buildCypher t p := by
  intro t f p hf
  unfold buildCypher
  have h : render (renameTree f t) (Env.init p)
      = (render t (Env.init p)).map
          (fun r => (r.1, r.2.1.map (fun q => (mapVar f q.1, q.2)), pushEnv f r.2.2)) :=
    render_push hf t (Env.init p)
  rw [h]
  cases render t (Env.init p) with
  | ok r => rfl
  | error err => rfl

/-- Witness for C5: a tree reusing one anonymous variable twice, renamed by
the injective successor function, builds to the same text. -/
theorem claim_C5_witness :
    buildCypher
        (renameTree Nat.succ (.seq (.varRef ⟨5, none⟩) (.seq (.raw "-") (.varRef ⟨5, none⟩)))) ""
      = buildCypher (.seq (.varRef ⟨5, none⟩) (.seq (.raw "-") (.varRef ⟨5, none⟩))) ""
    ∧ buildCypher (.seq (.varRef ⟨5, none⟩) (.seq (.raw "-") (.varRef ⟨5, none⟩))) ""
      = .ok "this0-this0" :=
  ⟨claim_C5 (.seq (.varRef ⟨5, none⟩) (.seq (.raw "-") (.varRef ⟨5, none⟩))) Nat.succ ""
      (fun _ _ hab => Nat.succ.inj hab),
    rfl⟩

/-- C7.  Rendering a pattern that ends on a dangling relationship-element
(a trailing `related(...)` with no terminating `to(...)`) always fails with
`IncompletePatternError`; rendering a complete pattern never raises this
error (its only failure mode is a name collision). -/
theorem claim_C7 :
    (∀ (pd : PatternData) (rel : RelElem) (e : Env),
      renderPattern (.dangling pd rel) e = .error .incompletePattern)
    ∧ (∀ (pd : PatternData) (e : Env),
      renderPattern (.complete pd) e ≠ .error .incompletePattern) := by
  constructor
  · intro pd rel e
    rfl
  · intro pd e h
    unfold renderPattern at h
    dsimp only at h
    cases hn : renderNodeElem pd.start e with
    | ok r =>
      obtain ⟨ss, e1⟩ := r
      rw [hn] at h
      dsimp only at h
      cases hc : renderChain pd.chain e1 with
      | ok rr =>
        obtain ⟨ts, e2⟩ := rr
        rw [hc] at h
        exact Except.noConfusion h
      | error err =>
        rw [hc] at h
        simp only [Except.error.injEq] at h
        have := renderChain_error hc
        rw [h] at this
        exact Err.noConfusion this
    | error err =>
      rw [hn] at h
      simp only [Except.error.injEq] at h
      have := renderNodeElem_error hn
      rw [h] at this
      exact Err.noConfusion this

/-- Witness for C7: the completed Person/ACTED_IN/Movie pattern renders (to
the spec's end-to-end example text), while its dangling prefix refuses with
`IncompletePatternError`. -/
theorem claim_C7_witness :
    renderPattern
        (.complete ⟨⟨⟨0, none⟩, ["Person"], false⟩,
          [(⟨⟨1, none⟩, some "ACTED_IN", .left, .unset⟩, ⟨⟨2, none⟩, ["Movie"], false⟩)]⟩)
        (Env.init "")
      ≠ .error .incompletePattern :=
  claim_C7.2 ⟨⟨⟨0, none⟩, ["Person"], false⟩,
    [(⟨⟨1, none⟩, some "ACTED_IN", .left, .unset⟩, ⟨⟨2, none⟩, ["Movie"], false⟩)]⟩
    (Env.init "")

/-- C6.  Within one compilation, every occurrence of the same Variable
identity renders to the same identifier string, and two distinct Variable
identities are never assigned the same identifier string — for every tree and
every pair of render positions in its trace. -/
theorem claim_C6 : ∀ (t : CNode) (p s : String) (tr : List (Var × String)) (e2 : Env),
    render t (Env.init p) = .ok (s, tr, e2) →
    ∀ v n w m, (v, n) ∈ tr → (w, m) ∈ tr →
      (v = w → n = m) ∧ (v ≠ w → n ≠ m) := by
  intro t p s tr e2 h v n w m hv hw
  have hwfinit : EnvWF (Env.init p) := ⟨by simp [Env.init], by simp [Env.init]⟩
  obtain ⟨hwf2, _, htr, _⟩ := render_wf t hwfinit h
  have h1 := htr (v, n) hv
  have h2 := htr (w, m) hw
  constructor
  · intro he
    subst he
    rw [h1] at h2
    exact (Option.some.injEq _ _).mp h2
  · intro hne
    exact lookupVar_inj hwf2.1 hwf2.2 h1 h2 hne

/-- Witness for C6: two anonymous variables rendered in one pattern-like tree
receive the distinct identifiers `this0` and `this1`. -/
theorem claim_C6_witness : ("this0" : String) ≠ "this1" :=
  (claim_C6 (.seq (.varRef ⟨0, none⟩) (.seq (.raw "-[:ACTED_IN]->") (.varRef ⟨1, none⟩)))
      "" "this0-[:ACTED_IN]->this1"
      [(⟨0, none⟩, "this0"), (⟨1, none⟩, "this1")]
      ⟨"", [(⟨1, none⟩, "this1"), (⟨0, none⟩, "this0")], 2⟩ rfl
      ⟨0, none⟩ "this0" ⟨1, none⟩ "this1" (by decide) (by decide)).2 (by decide)

/-- C8.  When a prefix is supplied to build, every explicitly named
identifier in the trace renders exactly as the caller supplied it (the
prefix is never applied to it), and every generated identifier begins with
the supplied prefix — for every tree and every prefix. -/
theorem claim_C8 : ∀ (t : CNode) (p s : String) (tr : List (Var × String)) (e2 : Env),
    render t (Env.init p) = .ok (s, tr, e2) →
    ∀ v n, (v, n) ∈ tr →
      (∀ nm, v.name = some nm → n = nm) ∧ (v.name = none → isPreB p.data n.data = true) := by
  intro t p s tr e2 h v n hv
  have hwfinit : EnvWF (Env.init p) := ⟨by simp [Env.init], by simp [Env.init]⟩
  have hnok : NamedOK p (Env.init p) := ⟨rfl, by simp [Env.init]⟩
  obtain ⟨_, _, htr, _⟩ := render_wf t hwfinit h
  have hok2 := render_namedOK t hnok h
  exact hok2.2 (v, n) (lookupVar_mem (htr (v, n) hv))

/-- Witness for C8 at prefix `q`: the named variable `me` renders verbatim
and the generated identifier `qthis0` starts with the prefix. -/
theorem claim_C8_witness :
    ("me" : String) = "me" ∧ isPreB "q".data "qthis0".data = true :=
  have happ := claim_C8
    (.seq (.varRef ⟨0, some "me"⟩) (.seq (.raw "-") (.varRef ⟨1, none⟩)))
    "q" "me-qthis0"
    [(⟨0, some "me"⟩, "me"), (⟨1, none⟩, "qthis0")]
    ⟨"q", [(⟨1, none⟩, "qthis0"), (⟨0, some "me"⟩, "me")], 1⟩ rfl
  ⟨(happ ⟨0, some "me"⟩ "me" (by decide)).1 "me" rfl,
    (happ ⟨1, none⟩ "qthis0" (by decide)).2 rfl⟩

theorem foldl_addColumns : ∀ (batches : List (List ProjEntry)) (p : Projection),
    (batches.foldl Projection.addColumns p).columns
      = p.columns ++ batches.flatten.filterMap entryCol
    ∧ (batches.foldl Projection.addColumns p).isStar
      = (p.isStar || batches.flatten.any entryIsStar) := by
  intro batches
  induction batches with
  | nil => intro p; simp
  | cons b bs ih =>
    intro p
    obtain ⟨h1, h2⟩ := ih (p.addColumns b)
    rw [List.foldl_cons]
    constructor
    · rw [h1]
      simp [Projection.addColumns, List.append_assoc]
    · rw [h2]
      simp [Projection.addColumns, Bool.or_assoc]

/-- C9.  A projection built from any batches of entries (constructor plus
any number of `addColumns` calls), with `"*"` entries at arbitrary
positions, renders exactly one `*`, as the first column, exactly when at
least one `"*"` entry was supplied; the `"*"` entries are excluded from the
ordinary column list, and the non-star columns render in insertion order
after it, joined by `", "`. -/
theorem claim_C9 : ∀ (batches : List (List ProjEntry)) (e : Env)
    (strs : List String) (e2 : Env),
    serializeAll (batches.flatten.filterMap entryCol) e = .ok (strs, e2) →
    Projection.getCypher (batches.foldl Projection.addColumns ⟨[], false⟩) e
      = .ok (String.intercalate ", "
            ((if batches.flatten.any entryIsStar then ["*"] else []) ++ strs),
          batches.foldl Projection.addColumns ⟨[], false⟩, e2) := by
  intro batches e strs e2 h
  obtain ⟨hcols, hstar⟩ := foldl_addColumns batches ⟨[], false⟩
  simp only [List.nil_append] at hcols
  simp only [Bool.false_or] at hstar
  unfold Projection.getCypher
  rw [hcols, h, hstar]
  cases hsb : batches.flatten.any entryIsStar
  · simp
  · simp

/-- Witness for C9: two batches with one `"*"` each still produce a single
leading `*` followed by the two columns in insertion order. -/
theorem claim_C9_witness :
    Projection.getCypher
        ([[ProjEntry.star, ProjEntry.col (.plain (.raw "a"))],
          [ProjEntry.col (.plain (.raw "b")), ProjEntry.star]].foldl
          Projection.addColumns ⟨[], false⟩)
        (Env.init "")
      = .ok ("*, a, b",
          [[ProjEntry.star, ProjEntry.col (.plain (.raw "a"))],
            [ProjEntry.col (.plain (.raw "b")), ProjEntry.star]].foldl
            Projection.addColumns ⟨[], false⟩,
          Env.init "") :=
  claim_C9 [[ProjEntry.star, ProjEntry.col (.plain (.raw "a"))],
    [ProjEntry.col (.plain (.raw "b")), ProjEntry.star]]
    (Env.init "") ["a", "b"] (Env.init "") rfl

theorem str_append_empty (a : String) : a ++ "" = a := by
  apply String.ext
  rw [String.data_append]
  exact List.append_nil _

theorem map_compileType_empty (ts : List CyType) :
    ts.map (fun t => compileType t ++ "") = ts.map compileType := by
  induction ts with
  | nil => rfl
  | cons t rest ih => simp only [List.map_cons, str_append_empty, ih]

theorem str_regroup (a m1 m2 m3 X : String) :
    a ++ m1 ++ m2 ++ m3 ++ X = a ++ (m1 ++ m2 ++ m3) ++ X := by
  apply String.ext
  simp [String.data_append, List.append_assoc]

/-- C10.  `IsType.getCypher` renders the compiled expression, then `IS`
(or `IS NOT` for the negated predicate), then `:: ` and the types joined by
` | `; after `notNull()` the suffix ` NOT NULL` is appended to every type of
the union, not only the last one. -/
theorem claim_C10 : ∀ (ex : CNode) (ts : List CyType) (e : Env) (sx : String)
    (tr : List (Var × String)) (e1 : Env), render ex e = .ok (sx, tr, e1) →
    (IsType.getCypher (isType ex ts) e
      = .ok (sx ++ " IS :: " ++ String.intercalate " | " (ts.map compileType),
          isType ex ts, e1))
    ∧ (IsType.getCypher (isNotType ex ts) e
      = .ok (sx ++ " IS NOT :: " ++ String.intercalate " | " (ts.map compileType),
          isNotType ex ts, e1))
    ∧ (IsType.getCypher ((isType ex ts).notNull) e
      = .ok (sx ++ " IS :: "
            ++ String.intercalate " | " (ts.map (fun ty => compileType ty ++ " NOT NULL")),
          (isType ex ts).notNull, e1))
    ∧ (IsType.getCypher ((isNotType ex ts).notNull) e
      = .ok (sx ++ " IS NOT :: "
            ++ String.intercalate " | " (ts.map (fun ty => compileType ty ++ " NOT NULL")),
          (isNotType ex ts).notNull, e1)) := by
  intro ex ts e sx tr e1 h
  refine ⟨?_, ?_, ?_, ?_⟩
  · show IsType.getCypher ⟨ex, ts, false, false⟩ e = _
    unfold IsType.getCypher
    dsimp only
    rw [h]
    dsimp only
    simp only [show (if false = true then "IS NOT" else "IS") = "IS" from rfl,
      show (if false = true then " NOT NULL" else "") = "" from rfl, if_true, if_false]
    rw [map_compileType_empty]
    rw [str_regroup, show (" " ++ "IS" ++ " :: " : String) = " IS :: " from by decide]
    rfl
  · show IsType.getCypher ⟨ex, ts, true, false⟩ e = _
    unfold IsType.getCypher
    dsimp only
    rw [h]
    dsimp only
    simp only [show (if true = true then "IS NOT" else "IS") = "IS NOT" from rfl,
      show (if false = true then " NOT NULL" else "") = "" from rfl, if_true, if_false]
    rw [map_compileType_empty]
    rw [str_regroup, show (" " ++ "IS NOT" ++ " :: " : String) = " IS NOT :: " from by decide]
    rfl
  · show IsType.getCypher ⟨ex, ts, false, true⟩ e = _
    unfold IsType.getCypher
    dsimp only
    rw [h]
    dsimp only
    simp only [show (if false = true then "IS NOT" else "IS") = "IS" from rfl,
      show (if true = true then " NOT NULL" else "") = " NOT NULL" from rfl, if_true, if_false]
    rw [str_regroup, show (" " ++ "IS" ++ " :: " : String) = " IS :: " from by decide]
    rfl
  · show IsType.getCypher ⟨ex, ts, true, true⟩ e = _
    unfold IsType.getCypher
    dsimp only
    rw [h]
    dsimp only
    simp only [show (if true = true then "IS NOT" else "IS") = "IS NOT" from rfl,
      show (if true = true then " NOT NULL" else "") = " NOT NULL" from rfl, if_true, if_false]
    rw [str_regroup, show (" " ++ "IS NOT" ++ " :: " : String) = " IS NOT :: " from by decide]
    rfl

/-- Witness for C10: the negated, not-null predicate over a base type and a
list type puts ` NOT NULL` on both union members. -/
theorem claim_C10_witness :
    IsType.getCypher ((isNotType (.raw "val") [.base "INTEGER", .list (.base "STRING")]).notNull)
        (Env.init "")
      = .ok ("val" ++ " IS NOT :: "
            ++ String.intercalate " | "
              ([CyType.base "INTEGER", CyType.list (.base "STRING")].map
                (fun ty => compileType ty ++ " NOT NULL")),
          (isNotType (.raw "val") [.base "INTEGER", .list (.base "STRING")]).notNull,
          Env.init "")
    ∧ ("val" ++ " IS NOT :: "
        ++ String.intercalate " | "
          ([CyType.base "INTEGER", CyType.list (.base "STRING")].map
            (fun ty => compileType ty ++ " NOT NULL")) : String)
      = "val IS NOT :: INTEGER NOT NULL | LIST<STRING> NOT NULL" :=
  ⟨(claim_C10 (.raw "val") [.base "INTEGER", .list (.base "STRING")] (Env.init "")
      "val" [] (Env.init "") rfl).2.2.2, by decide⟩

end CypherSpec
